import Mathlib

/-!
Shallow embedding of the `append-only-bytes` crate (`src/lib.rs`,
`src/raw_bytes.rs`, `src/serde.rs`).

Heap memory is made explicit: a `Store` is the list of all storage blocks
(`RawBytes`) ever allocated; an index into the store models the `Arc`
reference held by a buffer or a slice.  Indices are never reused, so two
distinct allocations always have distinct indices, matching `Arc::ptr_eq`
on distinct live allocations.  Every Rust operation becomes a pure Lean
function that threads the `Store` explicitly.
-/

/-- Model of the private struct `RawBytes` (`src/raw_bytes.rs`): a
fixed-capacity heap block.  The Rust struct stores a raw pointer plus a
capacity; here the allocated region is the list `data` (an uninitialized
byte is modelled as 0) whose length is the capacity.  The extra field
`committed` is ghost instrumentation, not present in the Rust struct: it
records the high-water mark of bytes ever written into the block, and is
used only to state the write-once property of committed regions. -/
structure RawBytes where
  data : List Nat
  committed : Nat
deriving DecidableEq, Repr

/-- Capacity of a block (`RawBytes::capacity`): the length of the
allocated region. -/
def RawBytes.capacity (r : RawBytes) : Nat := r.data.length

/-- Model of `RawBytes::with_capacity`: `Vec::with_capacity(n)` allocates
a region of exactly `n` bytes for `u8` elements; the uninitialized
contents are modelled as zeros.  Nothing has been written yet. -/
def RawBytes.with_capacity (n : Nat) : RawBytes := ⟨List.replicate n 0, 0⟩

/-- Overwrite of `bs.length` bytes of `l` starting at offset `off`;
models `ptr::copy_nonoverlapping(src, ptr.add(off), bs.len())`.  All
uses in the crate satisfy `off + bs.length ≤ l.length`, in which case
the length of the region is preserved. -/
def writeList (l : List Nat) (off : Nat) (bs : List Nat) : List Nat :=
  l.take off ++ bs ++ l.drop (off + bs.length)

/-- Writing through the raw pointer of a block at a given offset.  The
ghost `committed` mark is raised to cover the newly written bytes. -/
def RawBytes.write (r : RawBytes) (off : Nat) (bs : List Nat) : RawBytes :=
  ⟨writeList r.data off bs, max r.committed (off + bs.length)⟩

/-- The explicit heap: every storage block ever allocated, in allocation
order.  An `Arc<RawBytes>` is modelled as an index into this list. -/
structure Store where
  blocks : List RawBytes
deriving DecidableEq, Repr

def Store.numBlocks (st : Store) : Nat := st.blocks.length

def Store.get (st : Store) (i : Nat) : RawBytes := (st.blocks[i]?).getD ⟨[], 0⟩

/-- Allocation of a fresh block of capacity `n`; returns the new store and
the index (the model of the new `Arc`). -/
def Store.alloc (st : Store) (n : Nat) : Store × Nat :=
  (⟨st.blocks ++ [RawBytes.with_capacity n]⟩, st.blocks.length)

/-- Writing into block `i` of the store. -/
def Store.write (st : Store) (i off : Nat) (bs : List Nat) : Store :=
  ⟨st.blocks.set i ((st.get i).write off bs)⟩

/-- Model of `AppendOnlyBytes`: an `Arc<RawBytes>` (a store index) plus
the committed length `len`. -/
structure AppendOnlyBytes where
  raw : Nat
  len : Nat
deriving DecidableEq, Repr

/-- Model of `BytesSlice`: an `Arc<RawBytes>` (a store index) plus start
and end offsets.  The Rust field `end` is a Lean keyword, so it is named
`endIdx` here. -/
structure BytesSlice where
  raw : Nat
  start : Nat
  endIdx : Nat
deriving DecidableEq, Repr

/-- Model of `std::ops::Bound<&usize>` as consumed by `get_range`. -/
inductive Bound where
  | included (v : Nat)
  | excluded (v : Nat)
  | unbounded
deriving DecidableEq, Repr

/-- Model of an `impl RangeBounds<usize>` argument: its two bounds. -/
structure RangeB where
  start_bound : Bound
  end_bound : Bound
deriving DecidableEq, Repr

/-- Resolution of the start bound, as in the first match of `get_range`. -/
def resolveStart : Bound → Nat
  | .included v => v
  | .excluded v => v + 1
  | .unbounded => 0

/-- Resolution of the end bound against `max_len`, as in the second match
of `get_range`. -/
def resolveEnd : Bound → Nat → Nat
  | .included v, _ => v + 1
  | .excluded v, _ => v
  | .unbounded, max_len => max_len

/-- Model of the free function `get_range` (`src/lib.rs`): resolves the
two bounds and asserts `start <= end` and `end <= max_len`.  The two
`assert!` panics are modelled by `none`. -/
def get_range (r : RangeB) (max_len : Nat) : Option (Nat × Nat) :=
  let start := resolveStart r.start_bound
  let e := resolveEnd r.end_bound max_len
  if start ≤ e ∧ e ≤ max_len then some (start, e) else none

def MIN_CAPACITY : Nat := 32

/-- `AppendOnlyBytes::with_capacity`: allocate a fresh block, committed
length 0. -/
def AppendOnlyBytes.with_capacity (st : Store) (c : Nat) : Store × AppendOnlyBytes :=
  let p := st.alloc c
  (p.1, ⟨p.2, 0⟩)

/-- `AppendOnlyBytes::new` is `with_capacity(0)`. -/
def AppendOnlyBytes.new (st : Store) : Store × AppendOnlyBytes :=
  AppendOnlyBytes.with_capacity st 0

def AppendOnlyBytes.capacity (st : Store) (b : AppendOnlyBytes) : Nat :=
  (st.get b.raw).capacity

/-- `AppendOnlyBytes::as_bytes`: the committed region `[0, len)` of the
current block (`self.raw.slice(..self.len)`). -/
def AppendOnlyBytes.as_bytes (st : Store) (b : AppendOnlyBytes) : List Nat :=
  (st.get b.raw).data.take b.len

def AppendOnlyBytes.is_empty (b : AppendOnlyBytes) : Bool := b.len == 0

/-- Fuelled version of the doubling loop of `reserve`
(`while new_capacity < target { new_capacity *= 2 }`), structurally
recursive so that it computes by `decide`/`rfl`. -/
def growLoopFuel : Nat → Nat → Nat → Nat
  | 0, c, _ => c
  | fuel + 1, c, target => if c < target then growLoopFuel fuel (c * 2) target else c

/-- The doubling loop of `reserve`.  `target` units of fuel always
suffice: starting from `c ≥ 1` the value at least doubles each step, so
after `target` steps it is `≥ 2 ^ target ≥ target`. -/
def growLoop (c target : Nat) : Nat := growLoopFuel target c target

/-- `AppendOnlyBytes::reserve`: if `len + size` exceeds the capacity,
compute the new capacity with the doubling loop starting from
`max(capacity * 2, MIN_CAPACITY)`, allocate a fresh block of that
capacity, copy the `len` committed bytes into it at offset 0, and
repoint the buffer; otherwise do nothing. -/
def AppendOnlyBytes.reserve (st : Store) (b : AppendOnlyBytes) (size : Nat) :
    Store × AppendOnlyBytes :=
  let target := b.len + size
  if AppendOnlyBytes.capacity st b < target then
    let newCap := growLoop (max (AppendOnlyBytes.capacity st b * 2) MIN_CAPACITY) target
    let p := AppendOnlyBytes.with_capacity st newCap
    let st2 := p.1.write p.2.raw 0 (AppendOnlyBytes.as_bytes st b)
    (st2, ⟨p.2.raw, b.len⟩)
  else (st, b)

/-- `AppendOnlyBytes::push_slice`: reserve, copy the bytes at offset
`len`, bump `len`. -/
def AppendOnlyBytes.push_slice (st : Store) (b : AppendOnlyBytes) (bs : List Nat) :
    Store × AppendOnlyBytes :=
  let p := AppendOnlyBytes.reserve st b bs.length
  (p.1.write p.2.raw p.2.len bs, ⟨p.2.raw, p.2.len + bs.length⟩)

/-- `AppendOnlyBytes::push_str(s)` is `push_slice(s.as_bytes())`; a `&str`
argument is modelled directly by its UTF-8 byte sequence. -/
def AppendOnlyBytes.push_str (st : Store) (b : AppendOnlyBytes) (s : List Nat) :
    Store × AppendOnlyBytes :=
  AppendOnlyBytes.push_slice st b s

/-- `AppendOnlyBytes::push`: reserve 1, `ptr::write` one byte at offset
`len`, bump `len`. -/
def AppendOnlyBytes.push (st : Store) (b : AppendOnlyBytes) (v : Nat) :
    Store × AppendOnlyBytes :=
  let p := AppendOnlyBytes.reserve st b 1
  (p.1.write p.2.raw p.2.len [v], ⟨p.2.raw, p.2.len + 1⟩)

/-- `AppendOnlyBytes::slice`: validate the range against `len` via
`get_range` (panic modelled as `none`), then mint a slice over the
current block. -/
def AppendOnlyBytes.slice (b : AppendOnlyBytes) (r : RangeB) : Option BytesSlice :=
  (get_range r b.len).map fun q => ⟨b.raw, q.1, q.2⟩

/-- `AppendOnlyBytes::slice_str`: validate the range against `len`, then
read the bytes.  The UTF-8 validation of `from_utf8` (a recoverable
decode error) is not modelled; the function returns the raw bytes of the
range. -/
def AppendOnlyBytes.slice_str (st : Store) (b : AppendOnlyBytes) (r : RangeB) :
    Option (List Nat) :=
  (get_range r b.len).map fun q => ((st.get b.raw).data.drop q.1).take (q.2 - q.1)

/-- Range indexing `&buf[range]` (`impl Index for AppendOnlyBytes`): the
standard slice indexing of `raw.slice(..len)` panics exactly when the
resolved range is out of bounds for length `len`, the same condition
`get_range` asserts. -/
def AppendOnlyBytes.index (st : Store) (b : AppendOnlyBytes) (r : RangeB) :
    Option (List Nat) :=
  (get_range r b.len).map fun q => ((st.get b.raw).data.drop q.1).take (q.2 - q.1)

/-- `AppendOnlyBytes::to_slice`: consume the buffer, returning the slice
`[0, len)` over the current block. -/
def AppendOnlyBytes.to_slice (b : AppendOnlyBytes) : BytesSlice := ⟨b.raw, 0, b.len⟩

/-- `impl Clone for AppendOnlyBytes`: allocate a fresh block of the same
capacity and copy the `len` committed bytes into it. -/
def AppendOnlyBytes.clone (st : Store) (b : AppendOnlyBytes) : Store × AppendOnlyBytes :=
  let p := st.alloc (AppendOnlyBytes.capacity st b)
  (p.1.write p.2 0 (AppendOnlyBytes.as_bytes st b), ⟨p.2, b.len⟩)

/-- `BytesSlice::as_bytes` (also `bytes` and `deref`):
`raw.slice(start..end)`. -/
def BytesSlice.as_bytes (st : Store) (s : BytesSlice) : List Nat :=
  ((st.get s.raw).data.drop s.start).take (s.endIdx - s.start)

def BytesSlice.len (s : BytesSlice) : Nat := s.endIdx - s.start

def BytesSlice.is_empty (s : BytesSlice) : Bool := s.endIdx == s.start

/-- `BytesSlice::from_bytes`: allocate a private block sized exactly to
the input and copy the input into it. -/
def BytesSlice.from_bytes (st : Store) (bs : List Nat) : Store × BytesSlice :=
  let p := st.alloc bs.length
  (p.1.write p.2 0 bs, ⟨p.2, 0, bs.length⟩)

/-- `BytesSlice::slice_clone`: validate the range against this slice's
own length, then mint a slice over the same block with translated
offsets. -/
def BytesSlice.slice_clone (s : BytesSlice) (r : RangeB) : Option BytesSlice :=
  (get_range r (s.endIdx - s.start)).map fun q => ⟨s.raw, s.start + q.1, s.start + q.2⟩

/-- `BytesSlice::ptr_eq`: `Arc::ptr_eq`, i.e. identity of the referenced
block.  Store indices are never reused, so index equality is block
identity. -/
def BytesSlice.ptr_eq (a b : BytesSlice) : Bool := a.raw == b.raw

/-- `BytesSlice::can_merge`: same block and contiguous. -/
def BytesSlice.can_merge (a b : BytesSlice) : Bool :=
  BytesSlice.ptr_eq a b && (a.endIdx == b.start)

/-- The unit error type returned by `try_merge`. -/
inductive MergeFailed where
  | mk
deriving DecidableEq, Repr

/-- `BytesSlice::try_merge`: on success `self.end = other.end` in place
and `Ok(())`; on failure `self` unchanged and `Err(MergeFailed)`.  The
mutated `self` is returned as the first component, the error as the
second. -/
def BytesSlice.try_merge (a b : BytesSlice) : BytesSlice × Option MergeFailed :=
  if BytesSlice.can_merge a b then (⟨a.raw, a.start, b.endIdx⟩, none)
  else (a, some MergeFailed.mk)

/-- `BytesSlice::slice_str`: validate the range against this slice's own
length, then read from the dereferenced bytes.  UTF-8 validation (a
recoverable decode error) is not modelled. -/
def BytesSlice.slice_str (st : Store) (s : BytesSlice) (r : RangeB) :
    Option (List Nat) :=
  (get_range r (BytesSlice.len s)).map fun q =>
    ((BytesSlice.as_bytes st s).drop q.1).take (q.2 - q.1)

/-- `impl PartialEq for BytesSlice`: `self.as_bytes() == other.as_bytes()`. -/
def BytesSlice.eqb (st : Store) (a b : BytesSlice) : Bool :=
  BytesSlice.as_bytes st a == BytesSlice.as_bytes st b

/-- Lexicographic comparison of byte sequences, as `<[u8] as Ord>::cmp`. -/
def compareBytes : List Nat → List Nat → Ordering
  | [], [] => .eq
  | [], _ :: _ => .lt
  | _ :: _, [] => .gt
  | a :: l1, b :: l2 =>
    match compare a b with
    | .eq => compareBytes l1 l2
    | o => o

/-- `impl Ord for BytesSlice`: `self.as_bytes().cmp(other.as_bytes())`. -/
def BytesSlice.cmp (st : Store) (a b : BytesSlice) : Ordering :=
  compareBytes (BytesSlice.as_bytes st a) (BytesSlice.as_bytes st b)

/-- `impl Serialize for BytesSlice`, binary form:
`serializer.serialize_bytes(self.bytes())`. -/
def serializeBinary (st : Store) (s : BytesSlice) : List Nat :=
  BytesSlice.as_bytes st s

/-- `impl Serialize for BytesSlice`, human-readable form: the same bytes
encoded as a sequence of byte values. -/
def serializeHuman (st : Store) (s : BytesSlice) : List Nat :=
  BytesSlice.as_bytes st s

/-- `visit_bytes`/`visit_borrowed_bytes` of the deserializer:
`BytesSlice::from_bytes(v)`. -/
def deserializeBytes (st : Store) (v : List Nat) : Store × BytesSlice :=
  BytesSlice.from_bytes st v

/-- `visit_seq` of the deserializer (human-readable form): collect the
sequence into a byte vector and `BytesSlice::from_bytes` it. -/
def deserializeSeq (st : Store) (v : List Nat) : Store × BytesSlice :=
  BytesSlice.from_bytes st v

/-- The mutating operations of the append buffer, for quantifying over
arbitrary sequences of subsequent operations. -/
inductive PushOp where
  | push (v : Nat)
  | pushSlice (bs : List Nat)
  | pushStr (s : List Nat)
  | reserve (n : Nat)
deriving DecidableEq, Repr

def applyOp (st : Store) (b : AppendOnlyBytes) : PushOp → Store × AppendOnlyBytes
  | .push v => AppendOnlyBytes.push st b v
  | .pushSlice bs => AppendOnlyBytes.push_slice st b bs
  | .pushStr s => AppendOnlyBytes.push_str st b s
  | .reserve n => AppendOnlyBytes.reserve st b n

def applyOps (st : Store) (b : AppendOnlyBytes) : List PushOp → Store × AppendOnlyBytes
  | [] => (st, b)
  | op :: ops => applyOps (applyOp st b op).1 (applyOp st b op).2 ops

/-- Bytes appended by one operation. -/
def pushedBytes : PushOp → List Nat
  | .push v => [v]
  | .pushSlice bs => bs
  | .pushStr s => s
  | .reserve _ => []

/-- Bytes appended by a sequence of operations, in order. -/
def pushedAll : List PushOp → List Nat
  | [] => []
  | op :: ops => pushedBytes op ++ pushedAll ops

/-- Well-formedness of a buffer with respect to the store: its block
exists, its committed length fits the capacity, and the ghost
high-water mark of its block is exactly its committed length (the buffer
is the unique writer of its current block). -/
def BufInv (st : Store) (b : AppendOnlyBytes) : Prop :=
  b.raw < st.numBlocks ∧ b.len ≤ AppendOnlyBytes.capacity st b
    ∧ (st.get b.raw).committed = b.len

/-- Well-formedness of a slice with respect to the store: its block
exists, `start ≤ end`, every byte of `[start, end)` lies below the
block's committed high-water mark, and the committed mark is within the
capacity.  In particular `0 ≤ start ≤ end ≤ capacity`. -/
def SliceInv (st : Store) (s : BytesSlice) : Prop :=
  s.raw < st.numBlocks ∧ s.start ≤ s.endIdx ∧ s.endIdx ≤ (st.get s.raw).committed
    ∧ (st.get s.raw).committed ≤ (st.get s.raw).capacity

instance decBufInv (st : Store) (b : AppendOnlyBytes) : Decidable (BufInv st b) := by
  unfold BufInv
  infer_instance

instance decSliceInv (st : Store) (s : BytesSlice) : Decidable (SliceInv st s) := by
  unfold SliceInv
  infer_instance

example :
    let st0 : Store := ⟨[]⟩
    let p := AppendOnlyBytes.new st0
    let q := AppendOnlyBytes.push_str p.1 p.2 [49, 50, 51]
    AppendOnlyBytes.as_bytes q.1 q.2 = [49, 50, 51] ∧ q.2.len = 3 := by decide

example :
    let st0 : Store := ⟨[]⟩
    let p := AppendOnlyBytes.with_capacity st0 20
    let q := AppendOnlyBytes.reserve p.1 p.2 21
    AppendOnlyBytes.capacity q.1 q.2 = 40 := by decide

/-! Helper lemmas about `writeList`. -/

lemma writeList_length (l bs : List Nat) (off : Nat) (h : off + bs.length ≤ l.length) :
    (writeList l off bs).length = l.length := by
  simp only [writeList, List.length_append, List.length_take, List.length_drop]
  omega

lemma writeList_take_le (l bs : List Nat) (off c : Nat) (hc : c ≤ off)
    (h : off ≤ l.length) : (writeList l off bs).take c = l.take c := by
  unfold writeList
  rw [List.take_append_of_le_length (by simp [List.length_take]; omega)]
  rw [List.take_append_of_le_length (by simp [List.length_take]; omega)]
  rw [List.take_take, min_eq_left hc]

lemma writeList_take_full (l bs : List Nat) (off : Nat) (h : off ≤ l.length) :
    (writeList l off bs).take (off + bs.length) = l.take off ++ bs := by
  unfold writeList
  have hlen : (l.take off ++ bs).length = off + bs.length := by
    simp [List.length_take]; omega
  rw [← hlen, List.take_left]

lemma writeList_zero (l bs : List Nat) : writeList l 0 bs = bs ++ l.drop bs.length := by
  simp [writeList]

/-! Helper lemmas about `Store`. -/

lemma Store.alloc_numBlocks (st : Store) (n : Nat) :
    (st.alloc n).1.numBlocks = st.numBlocks + 1 := by
  simp [Store.alloc, Store.numBlocks]

lemma Store.write_numBlocks (st : Store) (j off : Nat) (bs : List Nat) :
    (st.write j off bs).numBlocks = st.numBlocks := by
  simp [Store.write, Store.numBlocks]

lemma Store.get_alloc_lt (st : Store) (n i : Nat) (h : i < st.numBlocks) :
    (st.alloc n).1.get i = st.get i := by
  simp only [Store.alloc, Store.get]
  rw [List.getElem?_append_left h]

lemma Store.get_alloc_self (st : Store) (n : Nat) :
    (st.alloc n).1.get st.numBlocks = RawBytes.with_capacity n := by
  simp only [Store.alloc, Store.get, Store.numBlocks]
  rw [List.getElem?_concat_length]
  rfl

lemma Store.get_write_ne (st : Store) (i j off : Nat) (bs : List Nat) (h : i ≠ j) :
    (st.write j off bs).get i = st.get i := by
  simp only [Store.write, Store.get]
  rw [List.getElem?_set_ne (fun he => h he.symm)]

lemma Store.get_write_self (st : Store) (j off : Nat) (bs : List Nat)
    (h : j < st.numBlocks) : (st.write j off bs).get j = (st.get j).write off bs := by
  simp only [Store.write, Store.get]
  rw [List.getElem?_set_eq_of_lt _ h]
  rfl

/-! Characterization of the doubling loop. -/

lemma growLoopFuel_spec (fuel : Nat) : ∀ c t : Nat, 0 < c → t ≤ c * 2 ^ fuel →
    ∃ k, growLoopFuel fuel c t = c * 2 ^ k ∧ t ≤ c * 2 ^ k
      ∧ ∀ j, t ≤ c * 2 ^ j → k ≤ j := by
  induction fuel with
  | zero =>
    intro c t _ hf
    exact ⟨0, by simp [growLoopFuel], by simpa using hf, fun j _ => Nat.zero_le j⟩
  | succ fuel ih =>
    intro c t hc hf
    by_cases hlt : c < t
    · have hf' : t ≤ c * 2 * 2 ^ fuel := by
        calc t ≤ c * 2 ^ (fuel + 1) := hf
        _ = c * 2 * 2 ^ fuel := by ring
      obtain ⟨k, hk1, hk2, hk3⟩ := ih (c * 2) t (by omega) hf'
      refine ⟨k + 1, ?_, ?_, ?_⟩
      · simpa [growLoopFuel, hlt, pow_succ] using hk1.trans (by ring)
      · calc t ≤ c * 2 * 2 ^ k := hk2
        _ = c * 2 ^ (k + 1) := by ring
      · intro j hj
        match j with
        | 0 => simp at hj; omega
        | j + 1 =>
          have : t ≤ c * 2 * 2 ^ j := by
            calc t ≤ c * 2 ^ (j + 1) := hj
            _ = c * 2 * 2 ^ j := by ring
          exact Nat.succ_le_succ (hk3 j this)
    · exact ⟨0, by simp [growLoopFuel, hlt], by simpa using Nat.le_of_not_lt hlt,
        fun j _ => Nat.zero_le j⟩

lemma growLoop_spec (c t : Nat) (hc : 0 < c) :
    ∃ k, growLoop c t = c * 2 ^ k ∧ t ≤ c * 2 ^ k ∧ ∀ j, t ≤ c * 2 ^ j → k ≤ j := by
  have hfuel : t ≤ c * 2 ^ t := by
    calc t ≤ 2 ^ t := Nat.le_of_lt (Nat.lt_two_pow t)
    _ = 1 * 2 ^ t := (one_mul _).symm
    _ ≤ c * 2 ^ t := Nat.mul_le_mul_right _ hc
  exact growLoopFuel_spec t c t hc hfuel

lemma growLoop_ge (c t : Nat) (hc : 0 < c) : t ≤ growLoop c t := by
  obtain ⟨k, hk1, hk2, _⟩ := growLoop_spec c t hc
  omega

/-! Effect of a buffer operation on the store: blocks are only ever added,
capacities of existing blocks never change, the committed high-water mark
of an existing block only grows, and the data below the old high-water
mark is never written again. -/

structure OpEffect (st st' : Store) : Prop where
  mono : st.numBlocks ≤ st'.numBlocks
  capEq : ∀ i, i < st.numBlocks → (st'.get i).capacity = (st.get i).capacity
  comMono : ∀ i, i < st.numBlocks → (st.get i).committed ≤ (st'.get i).committed
  comCap : ∀ i, i < st.numBlocks → (st.get i).committed ≤ (st.get i).capacity →
    (st'.get i).committed ≤ (st'.get i).capacity
  frozen : ∀ i, i < st.numBlocks →
    (st'.get i).data.take (st.get i).committed = (st.get i).data.take (st.get i).committed

lemma OpEffect.refl (st : Store) : OpEffect st st :=
  ⟨Nat.le_refl _, fun _ _ => rfl, fun _ _ => Nat.le_refl _, fun _ _ h => h, fun _ _ => rfl⟩

lemma OpEffect.trans {st1 st2 st3 : Store} (e1 : OpEffect st1 st2)
    (e2 : OpEffect st2 st3) : OpEffect st1 st3 := by
  refine ⟨e1.mono.trans e2.mono, ?_, ?_, ?_, ?_⟩
  · intro i hi
    rw [e2.capEq i (lt_of_lt_of_le hi e1.mono), e1.capEq i hi]
  · intro i hi
    exact (e1.comMono i hi).trans (e2.comMono i (lt_of_lt_of_le hi e1.mono))
  · intro i hi h
    exact e2.comCap i (lt_of_lt_of_le hi e1.mono) (e1.comCap i hi h)
  · intro i hi
    have hi2 : i < st2.numBlocks := lt_of_lt_of_le hi e1.mono
    have hc : (st1.get i).committed ≤ (st2.get i).committed := e1.comMono i hi
    calc (st3.get i).data.take (st1.get i).committed
        = ((st3.get i).data.take (st2.get i).committed).take (st1.get i).committed := by
          rw [List.take_take, min_eq_left hc]
      _ = ((st2.get i).data.take (st2.get i).committed).take (st1.get i).committed := by
          rw [e2.frozen i hi2]
      _ = (st2.get i).data.take (st1.get i).committed := by
          rw [List.take_take, min_eq_left hc]
      _ = (st1.get i).data.take (st1.get i).committed := e1.frozen i hi

lemma take_of_take_committed (d d' : List Nat) (s e c : Nat) (he : e ≤ c)
    (h : d'.take c = d.take c) :
    (d'.drop s).take (e - s) = (d.drop s).take (e - s) := by
  have key : ∀ x : List Nat, (x.drop s).take (e - s) = ((x.take c).drop s).take (e - s) := by
    intro x
    rw [List.drop_take, List.take_take, min_eq_left (Nat.sub_le_sub_right he s)]
  rw [key d', key d, h]

/-- Committed bytes of a well-formed buffer are preserved by any store
evolution that freezes committed regions. -/
lemma OpEffect.as_bytes_eq {st st' : Store} {b : AppendOnlyBytes}
    (e : OpEffect st st') (hb : BufInv st b) :
    AppendOnlyBytes.as_bytes st' b = AppendOnlyBytes.as_bytes st b := by
  obtain ⟨h1, _, h3⟩ := hb
  unfold AppendOnlyBytes.as_bytes
  rw [← h3]
  exact e.frozen b.raw h1

/-- Well-formedness of a slice is preserved by any store evolution that
freezes committed regions. -/
lemma OpEffect.sliceInv {st st' : Store} {s : BytesSlice}
    (e : OpEffect st st') (hs : SliceInv st s) : SliceInv st' s := by
  obtain ⟨h1, h2, h3, h4⟩ := hs
  exact ⟨lt_of_lt_of_le h1 e.mono, h2, h3.trans (e.comMono s.raw h1),
    e.comCap s.raw h1 h4⟩

/-- Content of a well-formed slice is preserved by any store evolution
that freezes committed regions. -/
lemma OpEffect.slice_as_bytes_eq {st st' : Store} {s : BytesSlice}
    (e : OpEffect st st') (hs : SliceInv st s) :
    BytesSlice.as_bytes st' s = BytesSlice.as_bytes st s := by
  obtain ⟨h1, _, h3, _⟩ := hs
  unfold BytesSlice.as_bytes
  exact take_of_take_committed _ _ s.start s.endIdx (st.get s.raw).committed h3
    (e.frozen s.raw h1)

/-! Effect lemmas for the buffer operations. -/

lemma as_bytes_length {st : Store} {b : AppendOnlyBytes} (hb : BufInv st b) :
    (AppendOnlyBytes.as_bytes st b).length = b.len := by
  obtain ⟨_, h2, _⟩ := hb
  simp only [AppendOnlyBytes.as_bytes, List.length_take]
  exact min_eq_left h2

lemma get_alloc_write_fresh (st : Store) (cap off : Nat) (bs : List Nat) (i : Nat)
    (h : i < st.numBlocks) :
    ((st.alloc cap).1.write st.numBlocks off bs).get i = st.get i := by
  rw [Store.get_write_ne _ _ _ _ _ (Nat.ne_of_lt h)]
  exact Store.get_alloc_lt st cap i h

lemma get_alloc_write_self (st : Store) (cap off : Nat) (bs : List Nat) :
    ((st.alloc cap).1.write st.numBlocks off bs).get st.numBlocks =
      (RawBytes.with_capacity cap).write off bs := by
  rw [Store.get_write_self _ _ _ _ (by rw [Store.alloc_numBlocks]; omega)]
  rw [Store.get_alloc_self]

lemma alloc_write_numBlocks (st : Store) (cap j off : Nat) (bs : List Nat) :
    ((st.alloc cap).1.write j off bs).numBlocks = st.numBlocks + 1 := by
  rw [Store.write_numBlocks, Store.alloc_numBlocks]

lemma reserve_eq_noop (st : Store) (b : AppendOnlyBytes) (size : Nat)
    (h : ¬ AppendOnlyBytes.capacity st b < b.len + size) :
    AppendOnlyBytes.reserve st b size = (st, b) := by
  simp only [AppendOnlyBytes.reserve, if_neg h]

lemma reserve_eq_grow (st : Store) (b : AppendOnlyBytes) (size : Nat)
    (h : AppendOnlyBytes.capacity st b < b.len + size) :
    AppendOnlyBytes.reserve st b size =
      ((st.alloc (growLoop (max (AppendOnlyBytes.capacity st b * 2) MIN_CAPACITY)
          (b.len + size))).1.write st.numBlocks 0 (AppendOnlyBytes.as_bytes st b),
       ⟨st.numBlocks, b.len⟩) := by
  simp only [AppendOnlyBytes.reserve, if_pos h, AppendOnlyBytes.with_capacity,
    Store.alloc, Store.numBlocks]

lemma reserve_effect (st : Store) (b : AppendOnlyBytes) (size : Nat) (hb : BufInv st b) :
    OpEffect st (AppendOnlyBytes.reserve st b size).1
    ∧ BufInv (AppendOnlyBytes.reserve st b size).1 (AppendOnlyBytes.reserve st b size).2
    ∧ (AppendOnlyBytes.reserve st b size).2.len = b.len
    ∧ AppendOnlyBytes.as_bytes (AppendOnlyBytes.reserve st b size).1
        (AppendOnlyBytes.reserve st b size).2 = AppendOnlyBytes.as_bytes st b
    ∧ b.len + size ≤ AppendOnlyBytes.capacity (AppendOnlyBytes.reserve st b size).1
        (AppendOnlyBytes.reserve st b size).2 := by
  by_cases hgrow : AppendOnlyBytes.capacity st b < b.len + size
  · rw [reserve_eq_grow st b size hgrow]
    dsimp only
    have hbase : 0 < max (AppendOnlyBytes.capacity st b * 2) MIN_CAPACITY := by
      have h32 : (32 : Nat) ≤ max (AppendOnlyBytes.capacity st b * 2) MIN_CAPACITY :=
        le_max_right _ _
      omega
    set newCap := growLoop (max (AppendOnlyBytes.capacity st b * 2) MIN_CAPACITY)
      (b.len + size) with hnc
    have htarget : b.len + size ≤ newCap := growLoop_ge _ _ hbase
    have hblen : (AppendOnlyBytes.as_bytes st b).length = b.len := as_bytes_length hb
    generalize hB : AppendOnlyBytes.as_bytes st b = B at hblen ⊢
    have hself : ((st.alloc newCap).1.write st.numBlocks 0 B).get st.numBlocks =
        ⟨B ++ (List.replicate newCap 0).drop B.length, B.length⟩ := by
      rw [get_alloc_write_self]
      simp [RawBytes.write, RawBytes.with_capacity, writeList_zero]
    have hcapself : (((st.alloc newCap).1.write st.numBlocks 0 B).get
        st.numBlocks).capacity = newCap := by
      rw [hself]
      simp only [RawBytes.capacity, List.length_append, List.length_drop,
        List.length_replicate, hblen]
      omega
    refine ⟨⟨?_, ?_, ?_, ?_, ?_⟩, ⟨?_, ?_, ?_⟩, rfl, ?_, ?_⟩
    · rw [alloc_write_numBlocks]; omega
    · intro i hi; rw [get_alloc_write_fresh _ _ _ _ _ hi]
    · intro i hi; rw [get_alloc_write_fresh _ _ _ _ _ hi]
    · intro i hi hc; rw [get_alloc_write_fresh _ _ _ _ _ hi]; exact hc
    · intro i hi; rw [get_alloc_write_fresh _ _ _ _ _ hi]
    · show st.numBlocks < Store.numBlocks _
      rw [alloc_write_numBlocks]; omega
    · show b.len ≤ AppendOnlyBytes.capacity _ _
      unfold AppendOnlyBytes.capacity
      rw [hcapself]
      omega
    · show RawBytes.committed _ = b.len
      rw [hself, hblen]
    · show AppendOnlyBytes.as_bytes _ _ = B
      unfold AppendOnlyBytes.as_bytes
      rw [hself]
      show (B ++ _).take b.len = B
      rw [List.take_append_of_le_length (by omega)]
      rw [← hblen, List.take_length]
    · show b.len + size ≤ AppendOnlyBytes.capacity _ _
      unfold AppendOnlyBytes.capacity
      rw [hcapself]
      exact htarget
  · rw [reserve_eq_noop st b size hgrow]
    refine ⟨OpEffect.refl st, hb, rfl, rfl, ?_⟩
    show b.len + size ≤ AppendOnlyBytes.capacity st b
    omega

lemma push_slice_effect (st : Store) (b : AppendOnlyBytes) (bs : List Nat)
    (hb : BufInv st b) :
    OpEffect st (AppendOnlyBytes.push_slice st b bs).1
    ∧ BufInv (AppendOnlyBytes.push_slice st b bs).1 (AppendOnlyBytes.push_slice st b bs).2
    ∧ (AppendOnlyBytes.push_slice st b bs).2.len = b.len + bs.length
    ∧ AppendOnlyBytes.as_bytes (AppendOnlyBytes.push_slice st b bs).1
        (AppendOnlyBytes.push_slice st b bs).2 = AppendOnlyBytes.as_bytes st b ++ bs := by
  obtain ⟨e1, hb1, hlen1, hab1, hcap1⟩ := reserve_effect st b bs.length hb
  set r := AppendOnlyBytes.reserve st b bs.length with hr
  obtain ⟨hj, hle, hcom⟩ := hb1
  set j := r.2.raw with hjdef
  set off := r.2.len with hoffdef
  set d := (r.1.get j).data with hd
  have hcapd : AppendOnlyBytes.capacity r.1 r.2 = d.length := rfl
  have hoff : off + bs.length ≤ d.length := by omega
  have hoffle : off ≤ d.length := by omega
  have hself : ((r.1.write j off bs).get j) = ⟨writeList d off bs, off + bs.length⟩ := by
    rw [Store.get_write_self _ _ _ _ hj]
    simp only [RawBytes.write, ← hd]
    congr 1
    omega
  have hps : AppendOnlyBytes.push_slice st b bs =
      (r.1.write j off bs, ⟨j, off + bs.length⟩) := rfl
  rw [hps]
  dsimp only
  refine ⟨e1.trans ⟨?_, ?_, ?_, ?_, ?_⟩, ⟨?_, ?_, ?_⟩, ?_, ?_⟩
  · rw [Store.write_numBlocks]
  · intro i hi
    by_cases hij : i = j
    · subst hij
      rw [hself]
      show (writeList d off bs).length = d.length
      exact writeList_length d bs off hoff
    · rw [Store.get_write_ne _ _ _ _ _ hij]
  · intro i hi
    by_cases hij : i = j
    · subst hij
      rw [hself]
      show (r.1.get j).committed ≤ off + bs.length
      omega
    · rw [Store.get_write_ne _ _ _ _ _ hij]
  · intro i hi hc
    by_cases hij : i = j
    · subst hij
      rw [hself]
      show off + bs.length ≤ (writeList d off bs).length
      rw [writeList_length d bs off hoff]
      exact hoff
    · rw [Store.get_write_ne _ _ _ _ _ hij]
      exact hc
  · intro i hi
    by_cases hij : i = j
    · subst hij
      rw [hself]
      show (writeList d off bs).take (r.1.get j).committed =
        d.take (r.1.get j).committed
      rw [hcom]
      exact writeList_take_le d bs off off (le_refl off) hoffle
    · rw [Store.get_write_ne _ _ _ _ _ hij]
  · show j < (r.1.write j off bs).numBlocks
    rw [Store.write_numBlocks]
    exact hj
  · show off + bs.length ≤ AppendOnlyBytes.capacity _ _
    unfold AppendOnlyBytes.capacity
    show off + bs.length ≤ (((r.1.write j off bs).get j)).capacity
    rw [hself]
    show off + bs.length ≤ (writeList d off bs).length
    rw [writeList_length d bs off hoff]
    exact hoff
  · show (((r.1.write j off bs).get j)).committed = off + bs.length
    rw [hself]
  · show off + bs.length = b.len + bs.length
    omega
  · show ((r.1.write j off bs).get j).data.take (off + bs.length) =
      AppendOnlyBytes.as_bytes st b ++ bs
    rw [hself]
    show (writeList d off bs).take (off + bs.length) = _
    rw [writeList_take_full d bs off hoffle]
    have : d.take off = AppendOnlyBytes.as_bytes r.1 r.2 := rfl
    rw [this, hab1]

lemma push_eq_push_slice (st : Store) (b : AppendOnlyBytes) (v : Nat) :
    AppendOnlyBytes.push st b v = AppendOnlyBytes.push_slice st b [v] := rfl

lemma applyOp_effect (st : Store) (b : AppendOnlyBytes) (op : PushOp) (hb : BufInv st b) :
    OpEffect st (applyOp st b op).1
    ∧ BufInv (applyOp st b op).1 (applyOp st b op).2
    ∧ (applyOp st b op).2.len = b.len + (pushedBytes op).length
    ∧ AppendOnlyBytes.as_bytes (applyOp st b op).1 (applyOp st b op).2 =
        AppendOnlyBytes.as_bytes st b ++ pushedBytes op := by
  cases op with
  | push v =>
    simpa [applyOp, push_eq_push_slice, pushedBytes] using push_slice_effect st b [v] hb
  | pushSlice bs =>
    simpa [applyOp, pushedBytes] using push_slice_effect st b bs hb
  | pushStr s =>
    simpa [applyOp, AppendOnlyBytes.push_str, pushedBytes] using push_slice_effect st b s hb
  | reserve n =>
    obtain ⟨e, hb2, hlen, hab, _⟩ := reserve_effect st b n hb
    exact ⟨e, hb2, by simpa [applyOp, pushedBytes] using hlen,
      by simpa [applyOp, pushedBytes] using hab⟩

lemma applyOps_effect (ops : List PushOp) : ∀ (st : Store) (b : AppendOnlyBytes),
    BufInv st b →
    OpEffect st (applyOps st b ops).1
    ∧ BufInv (applyOps st b ops).1 (applyOps st b ops).2
    ∧ (applyOps st b ops).2.len = b.len + (pushedAll ops).length
    ∧ AppendOnlyBytes.as_bytes (applyOps st b ops).1 (applyOps st b ops).2 =
        AppendOnlyBytes.as_bytes st b ++ pushedAll ops := by
  induction ops with
  | nil =>
    intro st b hb
    exact ⟨OpEffect.refl st, hb, by simp [applyOps, pushedAll],
      by simp [applyOps, pushedAll]⟩
  | cons op ops ih =>
    intro st b hb
    obtain ⟨e1, hb1, hlen1, hab1⟩ := applyOp_effect st b op hb
    obtain ⟨e2, hb2, hlen2, hab2⟩ := ih (applyOp st b op).1 (applyOp st b op).2 hb1
    have happ : applyOps st b (op :: ops) =
        applyOps (applyOp st b op).1 (applyOp st b op).2 ops := rfl
    rw [happ]
    refine ⟨e1.trans e2, hb2, ?_, ?_⟩
    · rw [hlen2, hlen1]
      simp [pushedAll]
      omega
    · rw [hab2, hab1]
      simp [pushedAll]

/-! Concrete sample objects used by the witnesses. -/

/-- Sample buffer: the bytes of "123" pushed into a fresh buffer. -/
def sampleP : Store × AppendOnlyBytes :=
  AppendOnlyBytes.push_str (AppendOnlyBytes.new ⟨[]⟩).1 (AppendOnlyBytes.new ⟨[]⟩).2
    [49, 50, 51]

/-- Sample slice: `buf.slice(1..3)` over the sample buffer. -/
def sampleSlice : BytesSlice := ⟨sampleP.2.raw, 1, 3⟩

/-- Sample subsequent operations: push "456", push one byte, reserve 100
(the last triggers growth past capacity 32). -/
def sampleOps : List PushOp :=
  [PushOp.pushStr [52, 53, 54], PushOp.push 55, PushOp.reserve 100]

/-- C1: any sequence of push/push_slice/push_str/reserve operations on a
well-formed buffer leaves the content of any well-formed slice
byte-for-byte identical, and more generally the region below the
committed high-water mark of every existing storage block is never
written again (the mark itself only grows). -/
theorem c1_committed_region_immutable (st : Store) (b : AppendOnlyBytes)
    (s : BytesSlice) (ops : List PushOp) (hb : BufInv st b) (hs : SliceInv st s) :
    BytesSlice.as_bytes (applyOps st b ops).1 s = BytesSlice.as_bytes st s
    ∧ ∀ i, i < st.numBlocks →
        (st.get i).committed ≤ ((applyOps st b ops).1.get i).committed
        ∧ ((applyOps st b ops).1.get i).data.take (st.get i).committed =
            (st.get i).data.take (st.get i).committed := by
  obtain ⟨e, _, _, _⟩ := applyOps_effect ops st b hb
  exact ⟨e.slice_as_bytes_eq hs, fun i hi => ⟨e.comMono i hi, e.frozen i hi⟩⟩

/-- Witness for C1 at a concrete input: slice "23" of "123", then push
"456", push a byte and reserve 100 (growing the buffer). -/
theorem c1_witness :
    BytesSlice.as_bytes (applyOps sampleP.1 sampleP.2 sampleOps).1 sampleSlice =
      BytesSlice.as_bytes sampleP.1 sampleSlice
    ∧ ∀ i, i < sampleP.1.numBlocks →
        (sampleP.1.get i).committed ≤
          ((applyOps sampleP.1 sampleP.2 sampleOps).1.get i).committed
        ∧ ((applyOps sampleP.1 sampleP.2 sampleOps).1.get i).data.take
            (sampleP.1.get i).committed =
            (sampleP.1.get i).data.take (sampleP.1.get i).committed :=
  c1_committed_region_immutable sampleP.1 sampleP.2 sampleSlice sampleOps
    (by decide) (by decide)

/-- C4: starting from an empty buffer, after any sequence of operations
the committed length equals the total number of bytes pushed so far and
`as_bytes` is the concatenation of all pushed byte sequences in order. -/
theorem c4_append_monotonicity (ops : List PushOp) :
    (applyOps (AppendOnlyBytes.new ⟨[]⟩).1 (AppendOnlyBytes.new ⟨[]⟩).2 ops).2.len =
      (pushedAll ops).length
    ∧ AppendOnlyBytes.as_bytes
        (applyOps (AppendOnlyBytes.new ⟨[]⟩).1 (AppendOnlyBytes.new ⟨[]⟩).2 ops).1
        (applyOps (AppendOnlyBytes.new ⟨[]⟩).1 (AppendOnlyBytes.new ⟨[]⟩).2 ops).2 =
      pushedAll ops := by
  have hb : BufInv (AppendOnlyBytes.new ⟨[]⟩).1 (AppendOnlyBytes.new ⟨[]⟩).2 := by decide
  obtain ⟨_, _, hlen, hab⟩ :=
    applyOps_effect ops (AppendOnlyBytes.new ⟨[]⟩).1 (AppendOnlyBytes.new ⟨[]⟩).2 hb
  have h0 : (AppendOnlyBytes.new (⟨[]⟩ : Store)).2.len = 0 := rfl
  have hnil : AppendOnlyBytes.as_bytes (AppendOnlyBytes.new (⟨[]⟩ : Store)).1
      (AppendOnlyBytes.new (⟨[]⟩ : Store)).2 = [] := rfl
  constructor
  · rw [hlen, h0, Nat.zero_add]
  · rw [hab, hnil, List.nil_append]

lemma reserve_capacity_grow (st : Store) (b : AppendOnlyBytes) (size : Nat)
    (hb : BufInv st b) (h : AppendOnlyBytes.capacity st b < b.len + size) :
    AppendOnlyBytes.capacity (AppendOnlyBytes.reserve st b size).1
      (AppendOnlyBytes.reserve st b size).2 =
      growLoop (max (AppendOnlyBytes.capacity st b * 2) MIN_CAPACITY) (b.len + size) := by
  rw [reserve_eq_grow st b size h]
  dsimp only
  have hbase : 0 < max (AppendOnlyBytes.capacity st b * 2) MIN_CAPACITY := by
    have h32 : (32 : Nat) ≤ max (AppendOnlyBytes.capacity st b * 2) MIN_CAPACITY :=
      le_max_right _ _
    omega
  set newCap := growLoop (max (AppendOnlyBytes.capacity st b * 2) MIN_CAPACITY)
    (b.len + size) with hnc
  have htarget : b.len + size ≤ newCap := growLoop_ge _ _ hbase
  have hblen : (AppendOnlyBytes.as_bytes st b).length = b.len := as_bytes_length hb
  unfold AppendOnlyBytes.capacity
  show (((st.alloc newCap).1.write st.numBlocks 0
      (AppendOnlyBytes.as_bytes st b)).get st.numBlocks).capacity = newCap
  rw [get_alloc_write_self]
  simp only [RawBytes.write, RawBytes.with_capacity, RawBytes.capacity, writeList_zero,
    List.length_append, List.length_drop, List.length_replicate, hblen]
  omega

/-- C2 (amended): `reserve` keeps `len` and `as_bytes` unchanged and
ensures `capacity ≥ len + size`; it is a no-op when `len + size ≤
capacity`; and when growth is triggered the new capacity is the smallest
value of the form `max(capacity * 2, MIN_CAPACITY) * 2 ^ k` that is at
least `len + size` (the claimed base `max(MIN_CAPACITY, capacity)` is
wrong: the code doubles the old capacity before taking the max). -/
theorem c2_reserve_growth (st : Store) (b : AppendOnlyBytes) (size : Nat)
    (hb : BufInv st b) :
    (AppendOnlyBytes.reserve st b size).2.len = b.len
    ∧ AppendOnlyBytes.as_bytes (AppendOnlyBytes.reserve st b size).1
        (AppendOnlyBytes.reserve st b size).2 = AppendOnlyBytes.as_bytes st b
    ∧ b.len + size ≤ AppendOnlyBytes.capacity (AppendOnlyBytes.reserve st b size).1
        (AppendOnlyBytes.reserve st b size).2
    ∧ (b.len + size ≤ AppendOnlyBytes.capacity st b →
        AppendOnlyBytes.reserve st b size = (st, b))
    ∧ (AppendOnlyBytes.capacity st b < b.len + size →
        ∃ k, AppendOnlyBytes.capacity (AppendOnlyBytes.reserve st b size).1
              (AppendOnlyBytes.reserve st b size).2 =
            max (AppendOnlyBytes.capacity st b * 2) MIN_CAPACITY * 2 ^ k
          ∧ b.len + size ≤ max (AppendOnlyBytes.capacity st b * 2) MIN_CAPACITY * 2 ^ k
          ∧ ∀ j, b.len + size ≤ max (AppendOnlyBytes.capacity st b * 2) MIN_CAPACITY * 2 ^ j
              → k ≤ j) := by
  obtain ⟨_, _, hlen, hab, hcap⟩ := reserve_effect st b size hb
  refine ⟨hlen, hab, hcap, ?_, ?_⟩
  · intro h
    exact reserve_eq_noop st b size (by omega)
  · intro h
    have hbase : 0 < max (AppendOnlyBytes.capacity st b * 2) MIN_CAPACITY := by
      have h32 : (32 : Nat) ≤ max (AppendOnlyBytes.capacity st b * 2) MIN_CAPACITY :=
        le_max_right _ _
      omega
    obtain ⟨k, hk1, hk2, hk3⟩ :=
      growLoop_spec (max (AppendOnlyBytes.capacity st b * 2) MIN_CAPACITY) (b.len + size)
        hbase
    refine ⟨k, ?_, hk2, hk3⟩
    rw [reserve_capacity_grow st b size hb h, hk1]

/-- Witness for C2 at a concrete input: a buffer of capacity 20 with
committed length 0, reserving 21 bytes. -/
theorem c2_witness :
    (AppendOnlyBytes.reserve (AppendOnlyBytes.with_capacity ⟨[]⟩ 20).1
        (AppendOnlyBytes.with_capacity ⟨[]⟩ 20).2 21).2.len =
      (AppendOnlyBytes.with_capacity (⟨[]⟩ : Store) 20).2.len
    ∧ AppendOnlyBytes.as_bytes
        (AppendOnlyBytes.reserve (AppendOnlyBytes.with_capacity ⟨[]⟩ 20).1
          (AppendOnlyBytes.with_capacity ⟨[]⟩ 20).2 21).1
        (AppendOnlyBytes.reserve (AppendOnlyBytes.with_capacity ⟨[]⟩ 20).1
          (AppendOnlyBytes.with_capacity ⟨[]⟩ 20).2 21).2 =
      AppendOnlyBytes.as_bytes (AppendOnlyBytes.with_capacity ⟨[]⟩ 20).1
        (AppendOnlyBytes.with_capacity ⟨[]⟩ 20).2
    ∧ (AppendOnlyBytes.with_capacity (⟨[]⟩ : Store) 20).2.len + 21 ≤
        AppendOnlyBytes.capacity
          (AppendOnlyBytes.reserve (AppendOnlyBytes.with_capacity ⟨[]⟩ 20).1
            (AppendOnlyBytes.with_capacity ⟨[]⟩ 20).2 21).1
          (AppendOnlyBytes.reserve (AppendOnlyBytes.with_capacity ⟨[]⟩ 20).1
            (AppendOnlyBytes.with_capacity ⟨[]⟩ 20).2 21).2
    ∧ ((AppendOnlyBytes.with_capacity (⟨[]⟩ : Store) 20).2.len + 21 ≤
        AppendOnlyBytes.capacity (AppendOnlyBytes.with_capacity ⟨[]⟩ 20).1
          (AppendOnlyBytes.with_capacity ⟨[]⟩ 20).2 →
        AppendOnlyBytes.reserve (AppendOnlyBytes.with_capacity ⟨[]⟩ 20).1
          (AppendOnlyBytes.with_capacity ⟨[]⟩ 20).2 21 =
        ((AppendOnlyBytes.with_capacity ⟨[]⟩ 20).1,
         (AppendOnlyBytes.with_capacity ⟨[]⟩ 20).2))
    ∧ (AppendOnlyBytes.capacity (AppendOnlyBytes.with_capacity ⟨[]⟩ 20).1
          (AppendOnlyBytes.with_capacity ⟨[]⟩ 20).2 <
        (AppendOnlyBytes.with_capacity (⟨[]⟩ : Store) 20).2.len + 21 →
        ∃ k, AppendOnlyBytes.capacity
              (AppendOnlyBytes.reserve (AppendOnlyBytes.with_capacity ⟨[]⟩ 20).1
                (AppendOnlyBytes.with_capacity ⟨[]⟩ 20).2 21).1
              (AppendOnlyBytes.reserve (AppendOnlyBytes.with_capacity ⟨[]⟩ 20).1
                (AppendOnlyBytes.with_capacity ⟨[]⟩ 20).2 21).2 =
            max (AppendOnlyBytes.capacity (AppendOnlyBytes.with_capacity ⟨[]⟩ 20).1
              (AppendOnlyBytes.with_capacity ⟨[]⟩ 20).2 * 2) MIN_CAPACITY * 2 ^ k
          ∧ (AppendOnlyBytes.with_capacity (⟨[]⟩ : Store) 20).2.len + 21 ≤
              max (AppendOnlyBytes.capacity (AppendOnlyBytes.with_capacity ⟨[]⟩ 20).1
                (AppendOnlyBytes.with_capacity ⟨[]⟩ 20).2 * 2) MIN_CAPACITY * 2 ^ k
          ∧ ∀ j, (AppendOnlyBytes.with_capacity (⟨[]⟩ : Store) 20).2.len + 21 ≤
                max (AppendOnlyBytes.capacity (AppendOnlyBytes.with_capacity ⟨[]⟩ 20).1
                  (AppendOnlyBytes.with_capacity ⟨[]⟩ 20).2 * 2) MIN_CAPACITY * 2 ^ j
              → k ≤ j) :=
  c2_reserve_growth (AppendOnlyBytes.with_capacity ⟨[]⟩ 20).1
    (AppendOnlyBytes.with_capacity ⟨[]⟩ 20).2 21 (by decide)

/-- Counterexample to C2 as stated: with capacity 20 and committed
length 0, reserving 21 bytes yields capacity 40, while the smallest
value of the claimed form `max(MIN_CAPACITY, capacity) * 2 ^ k` that is
at least 21 is 32 (at `k = 0`), and 40 is not 32. -/
theorem c2_counterexample :
    AppendOnlyBytes.capacity
      (AppendOnlyBytes.reserve (AppendOnlyBytes.with_capacity ⟨[]⟩ 20).1
        (AppendOnlyBytes.with_capacity ⟨[]⟩ 20).2 21).1
      (AppendOnlyBytes.reserve (AppendOnlyBytes.with_capacity ⟨[]⟩ 20).1
        (AppendOnlyBytes.with_capacity ⟨[]⟩ 20).2 21).2 = 40
    ∧ max MIN_CAPACITY 20 * 2 ^ 0 = 32
    ∧ 21 ≤ max MIN_CAPACITY 20 * 2 ^ 0
    ∧ (32 : Nat) ≠ 40 := by decide

/-- Counterexample to C7 as stated: `new()` constructs a buffer whose
block has capacity 0, not the claimed small default 32. -/
theorem c7_counterexample :
    AppendOnlyBytes.capacity (AppendOnlyBytes.new ⟨[]⟩).1 (AppendOnlyBytes.new ⟨[]⟩).2 = 0
    ∧ AppendOnlyBytes.capacity (AppendOnlyBytes.new ⟨[]⟩).1
        (AppendOnlyBytes.new ⟨[]⟩).2 ≠ 32 := by decide

/-- C7 (amended): `new()` and `with_capacity(n)` construct a buffer with
committed length 0; `with_capacity(n)` allocates a block of exactly `n`
bytes of capacity; `new()` is `with_capacity(0)` and therefore starts
with capacity 0 (`MIN_CAPACITY = 32` only takes effect at the first
growth). -/
theorem c7_construction (st : Store) (n : Nat) :
    (AppendOnlyBytes.with_capacity st n).2.len = 0
    ∧ AppendOnlyBytes.capacity (AppendOnlyBytes.with_capacity st n).1
        (AppendOnlyBytes.with_capacity st n).2 = n
    ∧ (AppendOnlyBytes.new st).2.len = 0
    ∧ AppendOnlyBytes.new st = AppendOnlyBytes.with_capacity st 0
    ∧ AppendOnlyBytes.capacity (AppendOnlyBytes.new st).1
        (AppendOnlyBytes.new st).2 = 0 := by
  refine ⟨rfl, ?_, rfl, rfl, ?_⟩
  · show ((st.alloc n).1.get st.numBlocks).capacity = n
    rw [Store.get_alloc_self]
    simp [RawBytes.with_capacity, RawBytes.capacity]
  · show ((st.alloc 0).1.get st.numBlocks).capacity = 0
    rw [Store.get_alloc_self]
    simp [RawBytes.with_capacity, RawBytes.capacity]

lemma get_range_none_iff (r : RangeB) (m : Nat) :
    get_range r m = none ↔
      ¬(resolveStart r.start_bound ≤ resolveEnd r.end_bound m
        ∧ resolveEnd r.end_bound m ≤ m) := by
  show (if resolveStart r.start_bound ≤ resolveEnd r.end_bound m
      ∧ resolveEnd r.end_bound m ≤ m
    then some (resolveStart r.start_bound, resolveEnd r.end_bound m) else none) = none ↔ _
  by_cases hc : resolveStart r.start_bound ≤ resolveEnd r.end_bound m
      ∧ resolveEnd r.end_bound m ≤ m
  · rw [if_pos hc]
    simp [hc]
  · rw [if_neg hc]
    simp [hc]

lemma get_range_some (r : RangeB) (m s e : Nat) (h : get_range r m = some (s, e)) :
    s = resolveStart r.start_bound ∧ e = resolveEnd r.end_bound m ∧ s ≤ e ∧ e ≤ m := by
  have h' : (if resolveStart r.start_bound ≤ resolveEnd r.end_bound m
      ∧ resolveEnd r.end_bound m ≤ m
    then some (resolveStart r.start_bound, resolveEnd r.end_bound m) else none) =
      some (s, e) := h
  by_cases hc : resolveStart r.start_bound ≤ resolveEnd r.end_bound m
      ∧ resolveEnd r.end_bound m ≤ m
  · rw [if_pos hc] at h'
    have hp := Option.some.inj h'
    have hs : resolveStart r.start_bound = s := congrArg Prod.fst hp
    have he : resolveEnd r.end_bound m = e := congrArg Prod.snd hp
    exact ⟨hs.symm, he.symm, hs ▸ he ▸ hc.1, he ▸ hc.2⟩
  · rw [if_neg hc] at h'
    exact absurd h' (by simp)

/-- C3: `try_merge(a, b)` succeeds iff `a` and `b` reference the identical
storage block and `a.end == b.start`; on success `a` becomes the slice
whose content is the byte-concatenation of the original contents of `a`
and `b` (only `a.end` is moved to `b.end`); on failure a merge error is
returned and `a` is completely unchanged.  The two hypotheses are the
`start ≤ end` well-formedness of the two slices. -/
theorem c3_try_merge (st : Store) (a b : BytesSlice)
    (ha : a.start ≤ a.endIdx) (hb : b.start ≤ b.endIdx) :
    ((BytesSlice.try_merge a b).2 = none ↔ a.raw = b.raw ∧ a.endIdx = b.start)
    ∧ (a.raw = b.raw ∧ a.endIdx = b.start →
        (BytesSlice.try_merge a b).1 = ⟨a.raw, a.start, b.endIdx⟩
        ∧ BytesSlice.as_bytes st (BytesSlice.try_merge a b).1 =
            BytesSlice.as_bytes st a ++ BytesSlice.as_bytes st b)
    ∧ (¬(a.raw = b.raw ∧ a.endIdx = b.start) →
        (BytesSlice.try_merge a b).1 = a
        ∧ (BytesSlice.try_merge a b).2 = some MergeFailed.mk) := by
  by_cases hc : a.raw = b.raw ∧ a.endIdx = b.start
  · have hcm : BytesSlice.can_merge a b = true := by
      simp [BytesSlice.can_merge, BytesSlice.ptr_eq, hc.1, hc.2]
    have ht : BytesSlice.try_merge a b = (⟨a.raw, a.start, b.endIdx⟩, none) := by
      simp [BytesSlice.try_merge, hcm]
    rw [ht]
    refine ⟨by simp [hc], fun _ => ⟨rfl, ?_⟩, fun hn => absurd hc hn⟩
    obtain ⟨hraw, hend⟩ := hc
    unfold BytesSlice.as_bytes
    dsimp only
    rw [← hraw, ← hend]
    have hbe : a.endIdx ≤ b.endIdx := hend ▸ hb
    have hsplit : b.endIdx - a.start = (a.endIdx - a.start) + (b.endIdx - a.endIdx) := by
      omega
    rw [hsplit, List.take_add]
    congr 1
    rw [List.drop_drop]
    have harith : a.start + (a.endIdx - a.start) = a.endIdx := by omega
    rw [harith]
  · have hcm : BytesSlice.can_merge a b = false := by
      cases h2 : BytesSlice.can_merge a b
      · rfl
      · simp [BytesSlice.can_merge, BytesSlice.ptr_eq] at h2
        exact absurd h2 hc
    have ht : BytesSlice.try_merge a b = (a, some MergeFailed.mk) := by
      simp [BytesSlice.try_merge, hcm]
    rw [ht]
    exact ⟨by simp [hc], fun h => absurd h hc, fun _ => ⟨rfl, rfl⟩⟩

/-- Sample store for the slice witnesses: a private block holding
[1, 2, 3, 4]. -/
def sampleStore4 : Store := (BytesSlice.from_bytes ⟨[]⟩ [1, 2, 3, 4]).1

/-- Witness for C3 at a concrete input: merging the halves [1,2) and
[2,4) of the block holding [1, 2, 3, 4]. -/
theorem c3_witness :
    BytesSlice.as_bytes sampleStore4
        (BytesSlice.try_merge ⟨0, 0, 2⟩ ⟨0, 2, 4⟩).1 = [1, 2, 3, 4]
    ∧ (BytesSlice.try_merge (⟨0, 0, 2⟩ : BytesSlice) ⟨0, 2, 4⟩).2 = none := by
  have h := c3_try_merge sampleStore4 ⟨0, 0, 2⟩ ⟨0, 2, 4⟩ (by decide) (by decide)
  refine ⟨?_, (h.1).2 ⟨rfl, rfl⟩⟩
  rw [(h.2.1 ⟨rfl, rfl⟩).2]
  decide

/-- C5: the range-validating operations panic (modelled as `none`)
exactly when the resolved range has `start > end` or `end` beyond the
valid length: the buffer's `len()` for `slice`/`slice_str`/indexing on
the buffer, the slice's own `len()` for `slice_clone`/`slice_str` on a
slice; for an in-bounds range `get_range` succeeds with the resolved
pair, so the operation succeeds. -/
theorem c5_range_assertions (r : RangeB) (max_len : Nat) (st : Store)
    (b : AppendOnlyBytes) (s : BytesSlice) :
    (get_range r max_len = none ↔
      resolveEnd r.end_bound max_len < resolveStart r.start_bound
      ∨ max_len < resolveEnd r.end_bound max_len)
    ∧ (resolveStart r.start_bound ≤ resolveEnd r.end_bound max_len
        ∧ resolveEnd r.end_bound max_len ≤ max_len →
        get_range r max_len =
          some (resolveStart r.start_bound, resolveEnd r.end_bound max_len))
    ∧ (AppendOnlyBytes.slice b r = none ↔ get_range r b.len = none)
    ∧ (AppendOnlyBytes.slice_str st b r = none ↔ get_range r b.len = none)
    ∧ (AppendOnlyBytes.index st b r = none ↔ get_range r b.len = none)
    ∧ (BytesSlice.slice_clone s r = none ↔ get_range r (BytesSlice.len s) = none)
    ∧ (BytesSlice.slice_str st s r = none ↔ get_range r (BytesSlice.len s) = none) := by
  refine ⟨?_, ?_, ?_, ?_, ?_, ?_, ?_⟩
  · rw [get_range_none_iff]
    omega
  · intro h
    show (if resolveStart r.start_bound ≤ resolveEnd r.end_bound max_len
        ∧ resolveEnd r.end_bound max_len ≤ max_len
      then some (resolveStart r.start_bound, resolveEnd r.end_bound max_len)
      else none) = _
    rw [if_pos h]
  · unfold AppendOnlyBytes.slice
    cases hgr : get_range r b.len <;> simp [hgr]
  · unfold AppendOnlyBytes.slice_str
    cases hgr : get_range r b.len <;> simp [hgr]
  · unfold AppendOnlyBytes.index
    cases hgr : get_range r b.len <;> simp [hgr]
  · unfold BytesSlice.slice_clone BytesSlice.len
    cases hgr : get_range r (s.endIdx - s.start) <;> simp [hgr]
  · unfold BytesSlice.slice_str
    cases hgr : get_range r (BytesSlice.len s) <;> simp [hgr]

lemma from_bytes_get (st : Store) (bs : List Nat) :
    (BytesSlice.from_bytes st bs).1.get st.numBlocks = ⟨bs, bs.length⟩ := by
  show ((st.alloc bs.length).1.write st.numBlocks 0 bs).get st.numBlocks = _
  rw [get_alloc_write_self]
  simp only [RawBytes.write, RawBytes.with_capacity, writeList_zero]
  congr 1
  · rw [List.drop_eq_nil_of_le (by simp), List.append_nil]
  · omega

lemma from_bytes_as_bytes (st : Store) (bs : List Nat) :
    BytesSlice.as_bytes (BytesSlice.from_bytes st bs).1
      (BytesSlice.from_bytes st bs).2 = bs := by
  show (((BytesSlice.from_bytes st bs).1.get st.numBlocks).data.drop 0).take
      (bs.length - 0) = bs
  rw [from_bytes_get]
  simp

lemma from_bytes_numBlocks (st : Store) (bs : List Nat) :
    (BytesSlice.from_bytes st bs).1.numBlocks = st.numBlocks + 1 := by
  show ((st.alloc bs.length).1.write st.numBlocks 0 bs).numBlocks = _
  rw [alloc_write_numBlocks]

lemma from_bytes_sliceInv (st : Store) (bs : List Nat) :
    SliceInv (BytesSlice.from_bytes st bs).1 (BytesSlice.from_bytes st bs).2 := by
  refine ⟨?_, ?_, ?_, ?_⟩
  · show st.numBlocks < (BytesSlice.from_bytes st bs).1.numBlocks
    rw [from_bytes_numBlocks]
    omega
  · show (0 : Nat) ≤ bs.length
    omega
  · show bs.length ≤ ((BytesSlice.from_bytes st bs).1.get st.numBlocks).committed
    rw [from_bytes_get]
  · show ((BytesSlice.from_bytes st bs).1.get st.numBlocks).committed ≤
      ((BytesSlice.from_bytes st bs).1.get st.numBlocks).capacity
    rw [from_bytes_get]
    show bs.length ≤ bs.length
    omega

/-- C6: every operation that mints a slice (`slice`, `to_slice`,
`slice_clone`, `try_merge`, `from_bytes`, deserialization) produces a
slice satisfying `0 ≤ start ≤ end ≤ committed ≤ capacity` of its block
(every byte of `[start, end)` was committed before the slice was
minted), and every buffer operation preserves this invariant for
existing slices. -/
theorem c6_slice_invariant (st : Store) (b : AppendOnlyBytes) (r : RangeB)
    (a s : BytesSlice) (bs : List Nat) (ops : List PushOp) :
    (BufInv st b → ∀ u, AppendOnlyBytes.slice b r = some u → SliceInv st u)
    ∧ (BufInv st b → SliceInv st (AppendOnlyBytes.to_slice b))
    ∧ (SliceInv st s → ∀ u, BytesSlice.slice_clone s r = some u → SliceInv st u)
    ∧ (SliceInv st a → SliceInv st s → SliceInv st (BytesSlice.try_merge a s).1)
    ∧ SliceInv (BytesSlice.from_bytes st bs).1 (BytesSlice.from_bytes st bs).2
    ∧ SliceInv (deserializeBytes st bs).1 (deserializeBytes st bs).2
    ∧ (BufInv st b → SliceInv st s → SliceInv (applyOps st b ops).1 s) := by
  refine ⟨?_, ?_, ?_, ?_, from_bytes_sliceInv st bs, from_bytes_sliceInv st bs, ?_⟩
  · intro hb u hu
    obtain ⟨hlt, hle, hcom⟩ := hb
    cases hgr : get_range r b.len with
    | none =>
      rw [AppendOnlyBytes.slice, hgr] at hu
      exact absurd hu (by simp)
    | some q =>
      rw [AppendOnlyBytes.slice, hgr] at hu
      have hu' : u = ⟨b.raw, q.1, q.2⟩ := (Option.some.inj hu).symm
      obtain ⟨_, _, hq1, hq2⟩ := get_range_some r b.len q.1 q.2 (by rw [hgr])
      subst hu'
      refine ⟨hlt, hq1, ?_, ?_⟩
      · show q.2 ≤ (st.get b.raw).committed
        rw [hcom]
        exact hq2
      · rw [hcom]
        exact hle
  · intro hb
    obtain ⟨hlt, hle, hcom⟩ := hb
    refine ⟨hlt, Nat.zero_le b.len, ?_, ?_⟩
    · show b.len ≤ (st.get b.raw).committed
      rw [hcom]
    · show (st.get b.raw).committed ≤ (st.get b.raw).capacity
      rw [hcom]
      exact hle
  · intro hs u hu
    obtain ⟨hlt, hse, hcom, hcap⟩ := hs
    cases hgr : get_range r (s.endIdx - s.start) with
    | none =>
      rw [BytesSlice.slice_clone, hgr] at hu
      exact absurd hu (by simp)
    | some q =>
      rw [BytesSlice.slice_clone, hgr] at hu
      have hu' : u = ⟨s.raw, s.start + q.1, s.start + q.2⟩ := (Option.some.inj hu).symm
      obtain ⟨_, _, hq1, hq2⟩ :=
        get_range_some r (s.endIdx - s.start) q.1 q.2 (by rw [hgr])
      subst hu'
      refine ⟨hlt, ?_, ?_, hcap⟩
      · show s.start + q.1 ≤ s.start + q.2
        omega
      · show s.start + q.2 ≤ (st.get s.raw).committed
        omega
  · intro hsa hss
    obtain ⟨halt, hase, hacom, hacap⟩ := hsa
    obtain ⟨hslt, hsse, hscom, hscap⟩ := hss
    cases hcm : BytesSlice.can_merge a s with
    | false =>
      have ht : (BytesSlice.try_merge a s).1 = a := by
        simp [BytesSlice.try_merge, hcm]
      rw [ht]
      exact ⟨halt, hase, hacom, hacap⟩
    | true =>
      have ht : (BytesSlice.try_merge a s).1 = ⟨a.raw, a.start, s.endIdx⟩ := by
        simp [BytesSlice.try_merge, hcm]
      obtain ⟨hraw, hend⟩ : a.raw = s.raw ∧ a.endIdx = s.start := by
        simpa [BytesSlice.can_merge, BytesSlice.ptr_eq] using hcm
      rw [ht]
      refine ⟨halt, ?_, ?_, hacap⟩
      · show a.start ≤ s.endIdx
        omega
      · show s.endIdx ≤ (st.get a.raw).committed
        rw [hraw]
        exact hscom
  · intro hb hs
    obtain ⟨e, _, _, _⟩ := applyOps_effect ops st b hb
    exact e.sliceInv hs

/-- Witness for C6 at concrete inputs, exercising each implication of
the conjunction: the sample buffer holding "123", its slice [1, 3), the
merge of two adjacent sub-slices, and the sample operations. -/
theorem c6_witness :
    SliceInv sampleP.1 (AppendOnlyBytes.to_slice sampleP.2)
    ∧ SliceInv sampleP.1 sampleSlice
    ∧ SliceInv sampleP.1 (BytesSlice.try_merge ⟨sampleP.2.raw, 1, 2⟩
        ⟨sampleP.2.raw, 2, 3⟩).1
    ∧ SliceInv (applyOps sampleP.1 sampleP.2 sampleOps).1 sampleSlice := by
  have h := c6_slice_invariant sampleP.1 sampleP.2
    ⟨Bound.included 1, Bound.excluded 3⟩ ⟨sampleP.2.raw, 1, 2⟩ sampleSlice [7] sampleOps
  have h2 := c6_slice_invariant sampleP.1 sampleP.2
    ⟨Bound.included 1, Bound.excluded 3⟩ ⟨sampleP.2.raw, 1, 2⟩ ⟨sampleP.2.raw, 2, 3⟩
    [7] sampleOps
  refine ⟨h.2.1 (by decide), ?_, ?_, h.2.2.2.2.2.2 (by decide) (by decide)⟩
  · exact h.1 (by decide) sampleSlice (by decide)
  · exact h2.2.2.2.1 (by decide) (by decide)

/-- C8: equality and ordering of slices are by byte-content comparison of
the referenced ranges, not block identity: `a == b` iff
`a.as_bytes() == b.as_bytes()`, `cmp` is the lexicographic comparison of
the contents, and two slices over two distinct private blocks with equal
bytes compare equal even though `ptr_eq` is false. -/
theorem c8_content_equality :
    (∀ (st : Store) (a b : BytesSlice),
      BytesSlice.eqb st a b = true ↔
        BytesSlice.as_bytes st a = BytesSlice.as_bytes st b)
    ∧ (∀ (st : Store) (a b : BytesSlice),
      BytesSlice.cmp st a b =
        compareBytes (BytesSlice.as_bytes st a) (BytesSlice.as_bytes st b))
    ∧ (BytesSlice.eqb
        (BytesSlice.from_bytes (BytesSlice.from_bytes ⟨[]⟩ [1, 2, 3]).1 [1, 2, 3]).1
        (BytesSlice.from_bytes (⟨[]⟩ : Store) [1, 2, 3]).2
        (BytesSlice.from_bytes (BytesSlice.from_bytes ⟨[]⟩ [1, 2, 3]).1 [1, 2, 3]).2 = true
      ∧ BytesSlice.ptr_eq (BytesSlice.from_bytes (⟨[]⟩ : Store) [1, 2, 3]).2
          (BytesSlice.from_bytes (BytesSlice.from_bytes ⟨[]⟩ [1, 2, 3]).1 [1, 2, 3]).2 =
          false) := by
  refine ⟨?_, fun st a b => rfl, by decide⟩
  intro st a b
  unfold BytesSlice.eqb
  simp

/-- C9: serializing a slice and deserializing the result yields a slice
with identical content, in both the binary and the human-readable form,
and the decoded slice lives in a freshly allocated private block distinct
from the original slice's block (`ptr_eq` is false). -/
theorem c9_serde_roundtrip (st : Store) (s : BytesSlice) (hs : s.raw < st.numBlocks) :
    BytesSlice.as_bytes (deserializeBytes st (serializeBinary st s)).1
      (deserializeBytes st (serializeBinary st s)).2 = BytesSlice.as_bytes st s
    ∧ BytesSlice.as_bytes (deserializeSeq st (serializeHuman st s)).1
      (deserializeSeq st (serializeHuman st s)).2 = BytesSlice.as_bytes st s
    ∧ (deserializeBytes st (serializeBinary st s)).2.raw = st.numBlocks
    ∧ (deserializeBytes st (serializeBinary st s)).2.raw ≠ s.raw
    ∧ BytesSlice.ptr_eq (deserializeBytes st (serializeBinary st s)).2 s = false
    ∧ (deserializeSeq st (serializeHuman st s)).2.raw ≠ s.raw := by
  have h1 := from_bytes_as_bytes st (BytesSlice.as_bytes st s)
  have hraw : (deserializeBytes st (serializeBinary st s)).2.raw = st.numBlocks := rfl
  refine ⟨h1, h1, hraw, by omega, ?_, by show st.numBlocks ≠ s.raw; omega⟩
  show (st.numBlocks == s.raw) = false
  simp
  omega

/-- Witness for C9 at a concrete input: round-tripping the sample slice
"23". -/
theorem c9_witness :
    BytesSlice.as_bytes
        (deserializeBytes sampleP.1 (serializeBinary sampleP.1 sampleSlice)).1
        (deserializeBytes sampleP.1 (serializeBinary sampleP.1 sampleSlice)).2 =
      BytesSlice.as_bytes sampleP.1 sampleSlice
    ∧ BytesSlice.ptr_eq
        (deserializeBytes sampleP.1 (serializeBinary sampleP.1 sampleSlice)).2
        sampleSlice = false := by
  have h := c9_serde_roundtrip sampleP.1 sampleSlice (by decide)
  exact ⟨h.1, h.2.2.2.2.1⟩

lemma clone_effect (st : Store) (b : AppendOnlyBytes) (hb : BufInv st b) :
    OpEffect st (AppendOnlyBytes.clone st b).1
    ∧ BufInv (AppendOnlyBytes.clone st b).1 (AppendOnlyBytes.clone st b).2
    ∧ BufInv (AppendOnlyBytes.clone st b).1 b
    ∧ (AppendOnlyBytes.clone st b).2.len = b.len
    ∧ (AppendOnlyBytes.clone st b).2.raw = st.numBlocks
    ∧ AppendOnlyBytes.capacity (AppendOnlyBytes.clone st b).1
        (AppendOnlyBytes.clone st b).2 = AppendOnlyBytes.capacity st b
    ∧ AppendOnlyBytes.as_bytes (AppendOnlyBytes.clone st b).1
        (AppendOnlyBytes.clone st b).2 = AppendOnlyBytes.as_bytes st b := by
  have hcl : AppendOnlyBytes.clone st b =
      ((st.alloc (AppendOnlyBytes.capacity st b)).1.write st.numBlocks 0
        (AppendOnlyBytes.as_bytes st b),
       ⟨st.numBlocks, b.len⟩) := rfl
  obtain ⟨hlt, hle, hcom⟩ := hb
  have hblen : (AppendOnlyBytes.as_bytes st b).length = b.len :=
    as_bytes_length ⟨hlt, hle, hcom⟩
  rw [hcl]
  dsimp only
  generalize hB : AppendOnlyBytes.as_bytes st b = B at hblen ⊢
  set cap := AppendOnlyBytes.capacity st b with hcapdef
  have hself : ((st.alloc cap).1.write st.numBlocks 0 B).get st.numBlocks =
      ⟨B ++ (List.replicate cap 0).drop B.length, B.length⟩ := by
    rw [get_alloc_write_self]
    simp [RawBytes.write, RawBytes.with_capacity, writeList_zero]
  have hcapself : (((st.alloc cap).1.write st.numBlocks 0 B).get
      st.numBlocks).capacity = cap := by
    rw [hself]
    simp only [RawBytes.capacity, List.length_append, List.length_drop,
      List.length_replicate, hblen]
    omega
  have hgetb : ((st.alloc cap).1.write st.numBlocks 0 B).get b.raw = st.get b.raw :=
    get_alloc_write_fresh st cap 0 B b.raw hlt
  refine ⟨⟨?_, ?_, ?_, ?_, ?_⟩, ⟨?_, ?_, ?_⟩, ⟨?_, ?_, ?_⟩, rfl, rfl, ?_, ?_⟩
  · rw [alloc_write_numBlocks]; omega
  · intro i hi; rw [get_alloc_write_fresh _ _ _ _ _ hi]
  · intro i hi; rw [get_alloc_write_fresh _ _ _ _ _ hi]
  · intro i hi hc; rw [get_alloc_write_fresh _ _ _ _ _ hi]; exact hc
  · intro i hi; rw [get_alloc_write_fresh _ _ _ _ _ hi]
  · show st.numBlocks < Store.numBlocks _
    rw [alloc_write_numBlocks]; omega
  · show b.len ≤ AppendOnlyBytes.capacity _ _
    unfold AppendOnlyBytes.capacity
    rw [hcapself]
    exact hle
  · show RawBytes.committed _ = b.len
    rw [hself, hblen]
  · show b.raw < Store.numBlocks _
    rw [alloc_write_numBlocks]; omega
  · show b.len ≤ AppendOnlyBytes.capacity _ _
    unfold AppendOnlyBytes.capacity
    rw [hgetb]
    exact hle
  · show RawBytes.committed _ = b.len
    rw [hgetb]
    exact hcom
  · show AppendOnlyBytes.capacity _ _ = cap
    unfold AppendOnlyBytes.capacity
    rw [hcapself]
  · show AppendOnlyBytes.as_bytes _ _ = B
    unfold AppendOnlyBytes.as_bytes
    rw [hself]
    show (B ++ _).take b.len = B
    rw [List.take_append_of_le_length (by omega)]
    rw [← hblen, List.take_length]

/-- C10: cloning a buffer produces a deep independent copy: same `len`,
same `capacity`, equal `as_bytes`, but a distinct freshly allocated
block, so any subsequent operations on the clone leave the original's
content and every well-formed slice of the original unchanged, and any
subsequent operations on the original leave the clone's content
unchanged. -/
theorem c10_clone_independence (st : Store) (b : AppendOnlyBytes) (hb : BufInv st b) :
    (AppendOnlyBytes.clone st b).2.len = b.len
    ∧ AppendOnlyBytes.capacity (AppendOnlyBytes.clone st b).1
        (AppendOnlyBytes.clone st b).2 = AppendOnlyBytes.capacity st b
    ∧ AppendOnlyBytes.as_bytes (AppendOnlyBytes.clone st b).1
        (AppendOnlyBytes.clone st b).2 = AppendOnlyBytes.as_bytes st b
    ∧ (AppendOnlyBytes.clone st b).2.raw ≠ b.raw
    ∧ (∀ ops : List PushOp,
        AppendOnlyBytes.as_bytes
            (applyOps (AppendOnlyBytes.clone st b).1 (AppendOnlyBytes.clone st b).2
              ops).1 b
          = AppendOnlyBytes.as_bytes st b
        ∧ ∀ s : BytesSlice, SliceInv st s →
            BytesSlice.as_bytes
                (applyOps (AppendOnlyBytes.clone st b).1 (AppendOnlyBytes.clone st b).2
                  ops).1 s
              = BytesSlice.as_bytes st s)
    ∧ (∀ ops : List PushOp,
        AppendOnlyBytes.as_bytes (applyOps (AppendOnlyBytes.clone st b).1 b ops).1
            (AppendOnlyBytes.clone st b).2
          = AppendOnlyBytes.as_bytes (AppendOnlyBytes.clone st b).1
            (AppendOnlyBytes.clone st b).2) := by
  obtain ⟨e0, hbc, hbo, hlen, hraw, hcap, habc⟩ := clone_effect st b hb
  refine ⟨hlen, hcap, habc, ?_, ?_, ?_⟩
  · rw [hraw]
    have := hb.1
    omega
  · intro ops
    obtain ⟨e, _, _, _⟩ := applyOps_effect ops _ _ hbc
    constructor
    · rw [e.as_bytes_eq hbo, e0.as_bytes_eq hb]
    · intro s hs
      rw [e.slice_as_bytes_eq (e0.sliceInv hs), e0.slice_as_bytes_eq hs]
  · intro ops
    obtain ⟨e, _, _, _⟩ := applyOps_effect ops _ _ hbo
    rw [e.as_bytes_eq hbc]

/-- Witness for C10 at a concrete input: cloning the sample buffer and
running the sample operations on the clone. -/
theorem c10_witness :
    (AppendOnlyBytes.clone sampleP.1 sampleP.2).2.len = sampleP.2.len
    ∧ AppendOnlyBytes.as_bytes (AppendOnlyBytes.clone sampleP.1 sampleP.2).1
        (AppendOnlyBytes.clone sampleP.1 sampleP.2).2 =
      AppendOnlyBytes.as_bytes sampleP.1 sampleP.2
    ∧ AppendOnlyBytes.as_bytes
        (applyOps (AppendOnlyBytes.clone sampleP.1 sampleP.2).1
          (AppendOnlyBytes.clone sampleP.1 sampleP.2).2 sampleOps).1 sampleP.2 =
      AppendOnlyBytes.as_bytes sampleP.1 sampleP.2 := by
  have h := c10_clone_independence sampleP.1 sampleP.2 (by decide)
  exact ⟨h.1, h.2.2.1, (h.2.2.2.2.1 sampleOps).1⟩

/-- Witness for C5 at a concrete input: the in-bounds range 1..3 against
valid length 3 resolves and succeeds. -/
theorem c5_witness :
    get_range ⟨Bound.included 1, Bound.excluded 3⟩ 3 = some (1, 3) := by
  have h := c5_range_assertions ⟨Bound.included 1, Bound.excluded 3⟩ 3 sampleP.1
    sampleP.2 sampleSlice
  exact h.2.1 (by decide)
